import Mathlib

/-!
# Verification of the ratatui-md event-driven markdown renderer

Shallow embedding of `src/ratatui-md/src/renderer.rs` (plus the small pieces of
`theme.rs` and the `md4c` type definitions it uses).  Rust strings are modelled
as `List Char`; byte offsets are recovered through `Char.utf8Size` where the
source works with byte indices.  Display width (the external `unicode-width`
crate) is modelled as an arbitrary parameter `cw : Char → Nat`, since the
renderer is parametric in that width table.  Rust's `str::to_lowercase` is
modelled char-wise by `Char.toLower` (the inputs we reason about only exercise
the ASCII part of case folding, where the two agree and byte lengths are
preserved).  The possibly non-terminating `while` loop inside `wrap_line` is
embedded with explicit fuel (`none` = fuel exhausted), which keeps the
divergence of the source observable.
-/

set_option maxRecDepth 4096

namespace MD

/-! ## Styles (ratatui `Style`, modelled as fg/bg colors plus a modifier bitset) -/

inductive Color
  | Black | Red | Green | Yellow | Blue | Magenta | Cyan | Gray | DarkGray
  | LightRed | LightGreen | LightYellow | LightBlue | LightMagenta | LightCyan
  | White
deriving DecidableEq, Repr

/-- Modifier bit values (the exact values are immaterial; they mirror the
bitflag nature of ratatui's `Modifier`). -/
def Modifier.BOLD : Nat := 1
def Modifier.DIM : Nat := 2
def Modifier.ITALIC : Nat := 4
def Modifier.UNDERLINED : Nat := 8
def Modifier.CROSSED_OUT : Nat := 16

structure Style where
  fg : Option Color := none
  bg : Option Color := none
  modifiers : Nat := 0
deriving DecidableEq, Repr

def Style.default : Style := {}

/-- `Style::fg` builder. -/
def Style.withFg (s : Style) (c : Color) : Style := { s with fg := some c }

/-- `Style::bg` builder. -/
def Style.withBg (s : Style) (c : Color) : Style := { s with bg := some c }

/-- `Style::add_modifier` builder. -/
def Style.add_modifier (s : Style) (m : Nat) : Style :=
  { s with modifiers := s.modifiers ||| m }

/-- `Style::patch`: the overlay's explicit colors win, modifiers are unioned. -/
def Style.patch (a b : Style) : Style :=
  { fg := match b.fg with | some c => some c | none => a.fg
    bg := match b.bg with | some c => some c | none => a.bg
    modifiers := a.modifiers ||| b.modifiers }

/-! ## Layout primitives: styled runs and lines (`ratatui::text::Span` / `Line`) -/

structure RSpan where
  content : List Char
  style : Style
deriving DecidableEq, Repr

abbrev Line := List RSpan

/-- Concatenated text of a line's (or run list's) spans. -/
def lineText (l : Line) : List Char := (l.map RSpan.content).flatten

/-! ## md4c types used by the renderer (`md4c-rs/src/types.rs`) -/

inductive Alignment
  | Default | Left | Center | Right
deriving DecidableEq, Repr

inductive TaskState
  | NotTask | Unchecked | Checked
deriving DecidableEq, Repr

/-- `ParserFlags` is a `u32` bitset (`md4c-rs/src/parser.rs`). -/
structure ParserFlags where
  flags : Nat
deriving DecidableEq, Repr

def ParserFlags.commonmark : ParserFlags := ⟨0⟩

/-- `MD_DIALECT_GITHUB = MD_FLAG_PERMISSIVEAUTOLINKS | MD_FLAG_TABLES |
MD_FLAG_STRIKETHROUGH | MD_FLAG_TASKLISTS` (`sys.rs`). -/
def ParserFlags.github : ParserFlags := ⟨0x0004 ||| 0x0008 ||| 0x0400 ||| 0x0100 ||| 0x0200 ||| 0x0800⟩

/-- `#[derive(Default)]` on `ParserFlags`: the `u32` defaults to `0`. -/
def ParserFlags.default : ParserFlags := ⟨0⟩

/-! ## RenderOptions (`renderer.rs` lines 18-60) -/

structure RenderOptions where
  width : Nat
  parser_flags : ParserFlags
  heading_space : Bool
  paragraph_space : Bool
  code_block_space : Bool
  list_space : Bool
  search_pattern : Option (List Char)
  search_highlight_style : Style
  -- `syntax_highlighting` and `syntax_theme` in the source:
  syn_highlighting : Bool
  syn_theme : Option (List Char)
deriving DecidableEq, Repr

/-- `RenderOptions::new()` (renderer.rs lines 44-60). -/
def RenderOptions.new : RenderOptions where
  width := 0
  parser_flags := ParserFlags.github
  heading_space := true
  paragraph_space := true
  code_block_space := true
  list_space := true
  search_pattern := none
  search_highlight_style :=
    ((Style.default.withBg Color.Yellow).withFg Color.Black).add_modifier Modifier.BOLD
  syn_highlighting := true
  syn_theme := none

/-- `#[derive(Default)]` on `RenderOptions`: every field takes its type's
derived default (`usize` 0, `bool` false, `Option` None, `Style::default()`,
`ParserFlags::default()`). -/
def RenderOptions.default : RenderOptions where
  width := 0
  parser_flags := ParserFlags.default
  heading_space := false
  paragraph_space := false
  code_block_space := false
  list_space := false
  search_pattern := none
  search_highlight_style := Style.default
  syn_highlighting := false
  syn_theme := none

/-! ## Theme (`theme.rs`; `blockquote_prefix` is rendered here as
`blockquote_pre`) -/

structure Theme where
  text : Style
  emphasis : Style
  strong : Style
  strikethrough : Style
  underline : Style
  code_inline : Style
  code_block : Style
  code_block_info : Style
  link : Style
  link_url : Style
  image : Style
  heading1 : Style
  heading2 : Style
  heading3 : Style
  heading4 : Style
  heading5 : Style
  heading6 : Style
  blockquote : Style
  blockquote_marker : Style
  horizontal_rule : Style
  list_bullet : Style
  list_number : Style
  task_unchecked : Style
  task_checked : Style
  table_header : Style
  table_cell : Style
  table_border : Style
  html_entity : Style
  raw_html : Style
  latex_math : Style
  wiki_link : Style
  bullet_char : Char
  hr_char : Char
  blockquote_pre : List Char
  show_link_urls : Bool
  list_indent : Nat
  task_unchecked_char : Char
  task_checked_char : Char
deriving DecidableEq, Repr

/-- `Theme::default()` (theme.rs lines 139-183). -/
def Theme.default : Theme where
  text := Style.default
  emphasis := Style.default.add_modifier Modifier.ITALIC
  strong := Style.default.add_modifier Modifier.BOLD
  strikethrough := Style.default.add_modifier Modifier.CROSSED_OUT
  underline := Style.default.add_modifier Modifier.UNDERLINED
  code_inline := Style.default.withFg Color.Yellow
  code_block := Style.default.withFg Color.White
  code_block_info := (Style.default.withFg Color.DarkGray).add_modifier Modifier.ITALIC
  link := (Style.default.withFg Color.Cyan).add_modifier Modifier.UNDERLINED
  link_url := Style.default.withFg Color.DarkGray
  image := Style.default.withFg Color.Magenta
  heading1 := (Style.default.withFg Color.Cyan).add_modifier Modifier.BOLD
  heading2 := (Style.default.withFg Color.Green).add_modifier Modifier.BOLD
  heading3 := (Style.default.withFg Color.Yellow).add_modifier Modifier.BOLD
  heading4 := (Style.default.withFg Color.Blue).add_modifier Modifier.BOLD
  heading5 := (Style.default.withFg Color.Magenta).add_modifier Modifier.BOLD
  heading6 := (Style.default.withFg Color.Red).add_modifier Modifier.BOLD
  blockquote := Style.default.withFg Color.Gray
  blockquote_marker := Style.default.withFg Color.DarkGray
  horizontal_rule := Style.default.withFg Color.DarkGray
  list_bullet := Style.default.withFg Color.Cyan
  list_number := Style.default.withFg Color.Cyan
  task_unchecked := Style.default.withFg Color.DarkGray
  task_checked := Style.default.withFg Color.Green
  table_header := Style.default.add_modifier Modifier.BOLD
  table_cell := Style.default
  table_border := Style.default.withFg Color.DarkGray
  html_entity := Style.default.withFg Color.Yellow
  raw_html := Style.default.withFg Color.DarkGray
  latex_math := Style.default.withFg Color.Magenta
  wiki_link := (Style.default.withFg Color.Blue).add_modifier Modifier.UNDERLINED
  bullet_char := '•'
  hr_char := '─'
  blockquote_pre := ['│', ' ']
  show_link_urls := false
  list_indent := 2
  task_unchecked_char := '☐'
  task_checked_char := '☑'

/-- `Theme::heading_style` (theme.rs lines 313-322). -/
def Theme.heading_style (t : Theme) (level : Nat) : Style :=
  match level with
  | 1 => t.heading1
  | 2 => t.heading2
  | 3 => t.heading3
  | 4 => t.heading4
  | 5 => t.heading5
  | _ => t.heading6

/-! ## Word wrap (`wrap_line`, renderer.rs lines 175-267)

The display-width table of the `unicode-width` crate appears as the parameter
`cw`; `strWidth cw` is `str::width` and `cw c` is `c.width().unwrap_or(1)`.
The `while !remaining.is_empty()` loop is given explicit fuel: one unit per
iteration, `none` when the fuel runs out.  Rust byte indices into `remaining`
become char indices into the `List Char` (the split points always lie on char
boundaries in the source, so the two views agree). -/

def strWidth (cw : Char → Nat) (s : List Char) : Nat := (s.map cw).sum

/-- The wrap-point scan (renderer.rs lines 213-227): walks the remaining text,
returning `(wrap_at, last_space)` as char indices.  `wrap_at` is the index just
past the last character that fits in `available`; `last_space` is the index of
the last whitespace character that fits. -/
def scanWrap (cw : Char → Nat) (available : Nat) :
    List Char → Nat → Nat → Nat → Option Nat → Nat × Option Nat
  | [], _, wrapAt, _, lastSpace => (wrapAt, lastSpace)
  | c :: cs, i, wrapAt, widthSoFar, lastSpace =>
    if available < widthSoFar + cw c then (wrapAt, lastSpace)
    else
      scanWrap cw available cs (i + 1) (i + 1) (widthSoFar + cw c)
        (if c.isWhitespace then some i else lastSpace)

/-- Choice of break point (renderer.rs lines 229-241): prefer the last space
if it is positive, else the last fitting character, else force one char. -/
def breakPos (scan : Nat × Option Nat) : Nat :=
  match scan.2 with
  | some spacePos => if 0 < spacePos then spacePos else scan.1
  | none => if 0 < scan.1 then scan.1 else 1

/-- The break position chosen for remaining text `r` with the given budget:
the scan of lines 213-227 followed by the choice of lines 229-241. -/
def breakAt (cw : Char → Nat) (available : Nat) (r : List Char) : Nat :=
  breakPos (scanWrap cw available r 0 0 0 none)

/-- Loop state of `wrap_line`: `result`, `current_line`, `current_width`. -/
structure WrapSt where
  result : List Line
  cur : Line
  curWidth : Nat
deriving DecidableEq, Repr

/-- The continuation-line indent span `RSpan::raw(indent_str)`. -/
def indentSpan (indent : Nat) : RSpan := ⟨List.replicate indent ' ', Style.default⟩

/-- One iteration of the `while !remaining.is_empty()` loop body
(renderer.rs lines 190-255) on non-empty remaining text: either the span
fits and the loop exits for this span (`Sum.inl` final state), or the loop
continues (`Sum.inr` with the new remaining text and state). -/
def wrapStep (cw : Char → Nat) (maxWidth indent : Nat) (style : Style)
    (c : Char) (cs : List Char) (st : WrapSt) :
    WrapSt ⊕ (List Char × WrapSt) :=
  let remaining := c :: cs
  let spanWidth := strWidth cw remaining
  if st.curWidth + spanWidth ≤ maxWidth then
    -- fits on the current line
    Sum.inl ⟨st.result, st.cur ++ [⟨remaining, style⟩], st.curWidth + spanWidth⟩
  else
    let available := maxWidth - st.curWidth
    if available = 0 then
      -- start a new line and retry the same remaining text
      Sum.inr (remaining,
        ⟨st.result ++ (if st.cur = [] then [] else [st.cur]),
         [indentSpan indent], indent⟩)
    else
      let bAt := breakAt cw available remaining
      let before := remaining.take bAt
      let after := remaining.drop bAt
      Sum.inr (after.dropWhile Char.isWhitespace,
        ⟨st.result ++ [st.cur ++ (if before = [] then [] else [⟨before, style⟩])],
         [indentSpan indent], indent⟩)

/-- One span's pass through the `while` loop, fuel-indexed (one fuel unit per
iteration; `none` = the loop has not finished within `fuel` iterations). -/
def wrapSpanAux (cw : Char → Nat) (maxWidth indent : Nat) (style : Style) :
    Nat → List Char → WrapSt → Option WrapSt
  | _, [], st => some st
  | 0, _ :: _, _ => none
  | Nat.succ fuel, c :: cs, st =>
    match wrapStep cw maxWidth indent style c cs st with
    | Sum.inl st' => some st'
    | Sum.inr (r', st') => wrapSpanAux cw maxWidth indent style fuel r' st'

/-- The `for span in spans` loop of `wrap_line`. -/
def wrapLineGo (cw : Char → Nat) (maxWidth indent fuel : Nat) :
    List RSpan → WrapSt → Option WrapSt
  | [], st => some st
  | sp :: sps, st =>
    match wrapSpanAux cw maxWidth indent sp.style fuel sp.content st with
    | none => none
    | some st' => wrapLineGo cw maxWidth indent fuel sps st'

/-- `wrap_line` (renderer.rs lines 175-267). -/
def wrap_line (cw : Char → Nat) (fuel : Nat) (spans : List RSpan)
    (maxWidth indent : Nat) : Option (List Line) :=
  if maxWidth = 0 then some [spans]
  else
    match wrapLineGo cw maxWidth indent fuel spans ⟨[], [], 0⟩ with
    | none => none
    | some st =>
      let result := st.result ++ (if st.cur = [] then [] else [st.cur])
      some (if result = [] then [[]] else result)

/-- Termination of the source loop: some fuel suffices. -/
def wrapTerminates (cw : Char → Nat) (spans : List RSpan)
    (maxWidth indent : Nat) : Prop :=
  ∃ fuel lines, wrap_line cw fuel spans maxWidth indent = some lines

/-! ## Search highlighting (`highlight_search`, renderer.rs lines 270-310)

The source works with byte indices (`match_indices`, `text.len()`,
`pattern.len()`).  Here matches are located at char positions and the reported
offsets are computed as UTF-8 byte offsets via `Char.utf8Size`, which is
exactly what the source reports (its `char_offset` accumulates `text.len()`,
a byte length). -/

def utf8Len (s : List Char) : Nat := (s.map Char.utf8Size).sum

/-- `str::match_indices`: left-to-right, non-overlapping; after a match at
position `i` the scan resumes at `i + pat.length`.  Positions are char
indices.  The resume-after-a-match jump is realised with a `skip` counter
(`pat.length - 1` further characters to pass over after a match) so that the
recursion is structural on the text. -/
def matchIndicesGo (pat : List Char) : List Char → Nat → Nat → List Nat
  | [], _, _ => []
  | c :: cs, i, skip =>
    match skip with
    | Nat.succ k => matchIndicesGo pat cs (i + 1) k
    | 0 =>
      if pat.isPrefixOf (c :: cs) then
        i :: matchIndicesGo pat cs (i + 1) (pat.length - 1)
      else
        matchIndicesGo pat cs (i + 1) 0

def matchIndicesChar (pat s : List Char) : List Nat :=
  matchIndicesGo pat s 0 0

/-- The per-run split loop of `highlight_search` (renderer.rs lines 285-303):
given the match start positions within one run's text, emit the non-matching
and matching sub-runs and record `(char_offset + match_start,
char_offset + match_start + pattern.len())` in bytes. -/
def buildRuns (base hl : Style) (patLen patBytes : Nat) (text : List Char)
    (byteBase : Nat) : List Nat → Nat → List RSpan × List (Nat × Nat)
  | [], lastEnd =>
    (if lastEnd < text.length then [⟨text.drop lastEnd, base⟩] else [], [])
  | i :: rest, lastEnd =>
    let pre : List RSpan :=
      if lastEnd < i then [⟨(text.drop lastEnd).take (i - lastEnd), base⟩] else []
    let matched : RSpan := ⟨(text.drop i).take patLen, hl⟩
    let startB := byteBase + utf8Len (text.take i)
    let r := buildRuns base hl patLen patBytes text byteBase rest (i + patLen)
    (pre ++ matched :: r.1, (startB, startB + patBytes) :: r.2)

/-- The `for span in spans` loop of `highlight_search`; `off` is the running
`char_offset` (a byte count in the source). -/
def highlightGo (pat patLower : List Char) (hl : Style) :
    List RSpan → Nat → List RSpan × List (Nat × Nat)
  | [], _ => ([], [])
  | sp :: rest, off =>
    let text := sp.content
    let idxs := matchIndicesChar patLower (text.map Char.toLower)
    let r := buildRuns sp.style hl pat.length (utf8Len pat) text off idxs 0
    let r' := highlightGo pat patLower hl rest (off + utf8Len text)
    (r.1 ++ r'.1, r.2 ++ r'.2)

/-- `highlight_search` (renderer.rs lines 270-310). -/
def highlight_search (spans : List RSpan) (pat : List Char) (hl : Style) :
    List RSpan × List (Nat × Nat) :=
  if pat = [] then (spans, [])
  else highlightGo pat (pat.map Char.toLower) hl spans 0

/-! ## Table layout (`render_table`, renderer.rs lines 574-667) -/

/-- Rendered text of a cell: `cell.iter().map(|s| s.content...).collect()`. -/
def cellText (cell : List RSpan) : List Char := (cell.map RSpan.content).flatten

/-- Display width of a cell: `cell.iter().map(|s| s.content.width()).sum()`. -/
def cellWidth (cw : Char → Nat) (cell : List RSpan) : Nat :=
  (cell.map (fun s => strWidth cw s.content)).sum

/-- One row's pass of the width-collection loop (renderer.rs lines 580-587):
`col_widths[i] = col_widths[i].max(cell_width)` for each cell with
`i < col_widths.len()`; cells beyond the width vector are ignored, columns the
row lacks are left unchanged. -/
def updateWidths (cw : Char → Nat) : List Nat → List (List RSpan) → List Nat
  | acc, [] => acc
  | [], _ => []
  | w :: ws, cell :: cells => max w (cellWidth cw cell) :: updateWidths cw ws cells

/-- Column widths: fold the rows over `vec![0; table_columns]`, then apply the
floor of 3 (renerer.rs lines 579-591). -/
def computeColWidths (cw : Char → Nat) (tableColumns : Nat)
    (rows : List (List (List RSpan))) : List Nat :=
  ((rows.foldl (updateWidths cw) (List.replicate tableColumns 0)).map (fun w => max w 3))

/-- Alignment-aware padding: `format!("{:^w$}")` / `{:>w$}` / `{:<w$}` with
`Center → ^`, `Right → >`, and everything else (including `Default`) `<`.
Rust pads with spaces when the content is shorter than the width (counting
chars), otherwise leaves it unchanged; centering puts the extra space on the
right. -/
def padCell (align : Alignment) (width : Nat) (s : List Char) : List Char :=
  if width ≤ s.length then s
  else
    let d := width - s.length
    match align with
    | Alignment.Center => List.replicate (d / 2) ' ' ++ s ++ List.replicate (d - d / 2) ' '
    | Alignment.Right => List.replicate d ' ' ++ s
    | _ => s ++ List.replicate d ' '

/-- The cell loop of a row (renderer.rs lines 608-627): iterates the row's own
cells, with `col_widths.get(col_idx)...unwrap_or(3)` and
`table_alignments.get(col_idx)...unwrap_or(Default)`. -/
def renderCells (th : Theme) (widths : List Nat) (aligns : List Alignment)
    (sty : Style) : Nat → List (List RSpan) → List RSpan
  | _, [] => []
  | colIdx, cell :: rest =>
    let w := (widths.get? colIdx).getD 3
    let a := (aligns.get? colIdx).getD Alignment.Default
    ⟨padCell a w (cellText cell), sty⟩ ::
      ⟨[' ', '│', ' '], th.table_border⟩ ::
        renderCells th widths aligns sty (colIdx + 1) rest

/-- One rendered table row: the leading `"│ "` border span followed by the
cell spans. -/
def rowLine (th : Theme) (widths : List Nat) (aligns : List Alignment)
    (sty : Style) (row : List (List RSpan)) : Line :=
  ⟨['│', ' '], th.table_border⟩ :: renderCells th widths aligns sty 0 row

/-- `join(sep)` over pieces, single-char separator. -/
def joinSep (sep : Char) : List (List Char) → List Char
  | [] => []
  | [x] => x
  | x :: y :: xs => x ++ sep :: joinSep sep (y :: xs)

/-- Top/bottom border segment text: `"─".repeat(w + 2)` per column. -/
def borderText (opening sep closing : Char) (widths : List Nat) : List Char :=
  opening :: joinSep sep (widths.map (fun w => List.replicate (w + 2) '─')) ++ [closing]

/-- One cell of the header separator (renderer.rs lines 637-642). -/
def sepCellText (w : Nat) (a : Alignment) : List Char :=
  match a with
  | Alignment.Left => ':' :: List.replicate w '─' ++ ['─']
  | Alignment.Right => List.replicate w '─' ++ ['─', ':']
  | Alignment.Center => ':' :: List.replicate w '─' ++ [':']
  | Alignment.Default => List.replicate (w + 2) '─'

/-- The header/body separator line text. -/
def sepText (widths : List Nat) (aligns : List Alignment) : List Char :=
  '├' :: joinSep '┼'
      ((List.range widths.length).map
        (fun i => sepCellText ((widths.get? i).getD 0) ((aligns.get? i).getD Alignment.Default)))
    ++ ['┤']

/-- `render_table` (renderer.rs lines 574-667), as a pure function from the
accumulated rows to the emitted lines (the source appends these lines to
`self.lines` and clears the accumulator). -/
def render_table (cw : Char → Nat) (th : Theme) (tableColumns : Nat)
    (aligns : List Alignment) (rows : List (List (List RSpan))) : List Line :=
  match rows with
  | [] => []
  | hd :: tl =>
    let widths := computeColWidths cw tableColumns (hd :: tl)
    let top : Line := [⟨borderText '┌' '┬' '┐' widths, th.table_border⟩]
    let bottom : Line := [⟨borderText '└' '┴' '┘' widths, th.table_border⟩]
    let sep : Line := [⟨sepText widths aligns, th.table_border⟩]
    top :: rowLine th widths aligns th.table_header hd :: sep ::
      (tl.map (rowLine th widths aligns th.table_cell) ++ [bottom])

/-! ## Horizontal rule (`render_horizontal_rule`, renderer.rs lines 527-536) -/

def render_horizontal_rule (options : RenderOptions) (th : Theme)
    (lines : List Line) : List Line :=
  let width := if 0 < options.width then options.width else 40
  lines ++ [[⟨List.replicate width th.hr_char, th.horizontal_rule⟩]]

/-! ## Specification-side definitions for the table claims -/

/-- Maximum of a list of naturals (0 when empty). -/
def maxList (l : List Nat) : Nat := l.foldl max 0

/-- The column width the spec describes: the maximum over all rows of that
column's rendered cell display width, floored at 3.  (Rows too short to have
the column contribute nothing.)  This is the comparison target for the
source-side `computeColWidths`. -/
def specColWidth (cw : Char → Nat) (rows : List (List (List RSpan)))
    (i : Nat) : Nat :=
  max (maxList ((rows.filterMap (fun r => r[i]?)).map (cellWidth cw))) 3

/-- Width table assigning every character one column (all inputs in the
concrete test cases below are narrow). -/
def cwOne : Char → Nat := fun _ => 1

/-- A ragged three-row table: the header has 2 cells, the second row only 1,
the third row 3 (one more than `column_count = 2`). -/
def cexRows : List (List (List RSpan)) :=
  [ [[⟨['a', 'a'], Style.default⟩], [⟨['b', 'b'], Style.default⟩]],
    [[⟨['x'], Style.default⟩]],
    [[⟨['p'], Style.default⟩], [⟨['q'], Style.default⟩],
      [⟨['r', 'r', 'r', 'r'], Style.default⟩]] ]

/-- Concrete wrap input for the round-trip witness: one run `"ab cdef g"`. -/
def rtSpans : List RSpan :=
  [⟨['a', 'b', ' ', 'c', 'd', 'e', 'f', ' ', 'g'], Style.default⟩]

/-- What `wrap_line` produces for `rtSpans` at width 4, indent 1. -/
def rtLines : List Line :=
  [[⟨['a', 'b'], Style.default⟩],
   [⟨[' '], Style.default⟩, ⟨['c', 'd', 'e'], Style.default⟩],
   [⟨[' '], Style.default⟩, ⟨['f', ' ', 'g'], Style.default⟩]]

/-! ## Specification-side definitions for the wrap round-trip claim

A wrapped output is compared against the input text through its *pieces*:
the first line's text plus each continuation line's text with the `indent`
character prefix removed.  The claim is that interleaving the pieces with
(whitespace-only) strings removed at the break points reconstructs the input
exactly. -/

/-- A continuation line's text with the indent prefix removed. -/
def stripOne (indent : Nat) (l : Line) : List Char := (lineText l).drop indent

/-- The pieces of a wrapped output: the first line verbatim, later lines with
their `indent`-space prefix removed. -/
def piecesOf (indent : Nat) : List Line → List (List Char)
  | [] => []
  | l :: ls => lineText l :: ls.map (stripOne indent)

/-- Interleave pieces with the separator strings removed at the boundaries:
`interleave [p0, p1, ..., pn] [w0, ..., w(n-1)] = p0 ++ w0 ++ p1 ++ ... ++ pn`. -/
def interleave : List (List Char) → List (List Char) → List Char
  | [], ws => ws.flatten
  | e :: es, [] => (e :: es).flatten
  | e :: es, w :: ws => e ++ w ++ interleave es ws

/-- Concatenate two piece lists, merging at the boundary: the first element
of `ys` extends the last element of `xs`. -/
def lastExtend : List (List Char) → List (List Char) → List (List Char)
  | [], ys => ys
  | [x], [] => [x]
  | [x], y :: ys => (x ++ y) :: ys
  | x :: x' :: xs, ys => x :: lastExtend (x' :: xs) ys

/-- Every inserted separator consists of whitespace characters only. -/
def allWhite (ws : List (List Char)) : Prop :=
  ∀ w ∈ ws, ∀ ch ∈ w, ch.isWhitespace = true

/-- The pieces of an in-progress wrap state (current line included). -/
def Pieces (indent : Nat) (st : WrapSt) : List (List Char) :=
  piecesOf indent (st.result ++ [st.cur])

/-- Loop invariant of `wrap_line`: the current line is empty only in the
initial state (nothing flushed, zero width), and once something has been
flushed the current line starts with the indent span. -/
def Inv (indent : Nat) (st : WrapSt) : Prop :=
  (st.cur = [] → st.result = [] ∧ st.curWidth = 0) ∧
  (st.result ≠ [] → ∃ rest, st.cur = indentSpan indent :: rest)

/-! ## The event stream and the style-stack discipline
(`ParserHandler for RendererState`, renderer.rs lines 670-997)

Only the style-stack effect of each handler is modelled here: the handlers'
pushes and pops are unconditional in the source (each `Enter` arm pushes at
most once and each `Leave` arm pops at most once, independently of the other
state fields), so the stack evolution is a function of the event kinds alone.
Span details (link href, image src, ...) are elided as they never touch the
stack. -/

inductive Block
  | document
  | paragraph
  | heading (level : Nat)
  | quote
  | code (lang : List Char)
  | unorderedList
  | orderedList (start : Nat)
  | listItem (task : TaskState)
  | horizontalRule
  | html
  | table (columnCount : Nat)
  | tableHead
  | tableBody
  | tableRow
  | tableHeaderCell (a : Alignment)
  | tableCell (a : Alignment)
deriving DecidableEq, Repr

inductive BlockType
  | document | paragraph | heading | quote | code | unorderedList | orderedList
  | listItem | horizontalRule | html | table | tableHead | tableBody | tableRow
  | tableHeaderCell | tableCell
deriving DecidableEq, Repr

inductive SpanKind
  | emphasis | strong | strikethrough | underline | code | link | image
  | latexMath | latexMathDisplay | wikiLink
deriving DecidableEq, Repr

inductive TextType
  | normal | code | latexMath | hardBreak | softBreak | entity | html | nullChar
deriving DecidableEq, Repr

inductive Event
  | enterBlock (b : Block)
  | leaveBlock (b : BlockType)
  | enterSpan (s : SpanKind)
  | leaveSpan (s : SpanKind)
  | text (t : TextType) (content : List Char)
deriving DecidableEq, Repr

/-- The style stack of `RendererState` (top of stack = last element, as with
`Vec::push`/`Vec::pop`/`last()`). -/
structure StackState where
  style_stack : List Style
deriving DecidableEq, Repr

/-- `RendererState::new` seeds the stack with `vec![theme.text]`
(renderer.rs line 381). -/
def StackState.new (th : Theme) : StackState := ⟨[th.text]⟩

/-- `current_style` (renderer.rs lines 405-407). -/
def current_style (th : Theme) (st : StackState) : Style :=
  st.style_stack.getLast?.getD th.text

/-- `push_style` (renderer.rs lines 409-413). -/
def push_style (th : Theme) (st : StackState) (style : Style) : StackState :=
  ⟨st.style_stack ++ [(current_style th st).patch style]⟩

/-- `pop_style` (renderer.rs lines 415-419): guarded to be a no-op when only
the base element remains. -/
def pop_style (st : StackState) : StackState :=
  if 1 < st.style_stack.length then ⟨st.style_stack.dropLast⟩ else st

/-- Style pushed on `enter_span` (renderer.rs lines 870-915). -/
def spanStyle (th : Theme) : SpanKind → Style
  | SpanKind.emphasis => th.emphasis
  | SpanKind.strong => th.strong
  | SpanKind.strikethrough => th.strikethrough
  | SpanKind.underline => th.underline
  | SpanKind.code => th.code_inline
  | SpanKind.link => th.link
  | SpanKind.image => th.image
  | SpanKind.latexMath => th.latex_math
  | SpanKind.latexMathDisplay => th.latex_math
  | SpanKind.wikiLink => th.wiki_link

/-- Style-stack effect of one event, exactly mirroring the push/pop calls of
the four handlers: `enter_block` pushes for Heading/Quote/Code/Html,
`leave_block` pops for those four kinds, `enter_span` always pushes once, and
`leave_span` always pops exactly once (both arms of the Link case included);
`text` leaves the stack alone. -/
def styleStep (th : Theme) (st : StackState) : Event → StackState
  | Event.enterBlock (Block.heading level) => push_style th st (th.heading_style level)
  | Event.enterBlock Block.quote => push_style th st th.blockquote
  | Event.enterBlock (Block.code _) => push_style th st th.code_block
  | Event.enterBlock Block.html => push_style th st th.raw_html
  | Event.enterBlock _ => st
  | Event.leaveBlock BlockType.heading => pop_style st
  | Event.leaveBlock BlockType.quote => pop_style st
  | Event.leaveBlock BlockType.code => pop_style st
  | Event.leaveBlock BlockType.html => pop_style st
  | Event.leaveBlock _ => st
  | Event.enterSpan s => push_style th st (spanStyle th s)
  | Event.leaveSpan _ => pop_style st
  | Event.text _ _ => st

/-- Run a whole event stream from the freshly constructed state. -/
def runEvents (th : Theme) (events : List Event) : StackState :=
  events.foldl (styleStep th) (StackState.new th)

/-! ## Claim theorems -/

theorem stack_inv_step (th : Theme) (st : StackState) (e : Event)
    (h1 : st.style_stack ≠ []) (h2 : st.style_stack.head? = some th.text) :
    (styleStep th st e).style_stack ≠ [] ∧
      (styleStep th st e).style_stack.head? = some th.text := by
  have hpush : ∀ sty, (push_style th st sty).style_stack ≠ [] ∧
      (push_style th st sty).style_stack.head? = some th.text := by
    intro sty
    cases hst : st.style_stack with
    | nil => exact absurd hst h1
    | cons a t =>
      rw [hst] at h2
      constructor
      · simp [push_style, hst]
      · simpa [push_style, hst] using h2
  have hpop : (pop_style st).style_stack ≠ [] ∧
      (pop_style st).style_stack.head? = some th.text := by
    unfold pop_style
    by_cases hlen : 1 < st.style_stack.length
    · simp only [hlen, if_pos]
      match hst : st.style_stack with
      | [] => simp [hst] at h1
      | [a] => rw [hst] at hlen; simp at hlen
      | a :: b :: t =>
        rw [hst] at h2
        constructor
        · simp [List.dropLast]
        · simpa [List.dropLast] using h2
    · simp only [hlen, if_neg, not_false_iff]
      exact ⟨h1, h2⟩
  cases e with
  | enterBlock b =>
    cases b <;> simp only [styleStep] <;> first | exact ⟨h1, h2⟩ | exact hpush _
  | leaveBlock b =>
    cases b <;> simp only [styleStep] <;> first | exact ⟨h1, h2⟩ | exact hpop
  | enterSpan s => exact hpush _
  | leaveSpan s => exact hpop
  | text t c => exact ⟨h1, h2⟩

theorem stack_inv_run (th : Theme) (events : List Event) :
    ∀ st : StackState, st.style_stack ≠ [] → st.style_stack.head? = some th.text →
      (events.foldl (styleStep th) st).style_stack ≠ [] ∧
        (events.foldl (styleStep th) st).style_stack.head? = some th.text := by
  induction events with
  | nil => intro st h1 h2; exact ⟨h1, h2⟩
  | cons e rest ih =>
    intro st h1 h2
    have step := stack_inv_step th st e h1 h2
    exact ih (styleStep th st e) step.1 step.2

/-- C8: over every event sequence — balanced or not — the style stack keeps at
least its base element (which stays `theme.text` at the bottom), `pop_style`
is a no-op on a stack holding only the base element, and reading the current
style always yields the existing top of the stack. -/
theorem style_stack_safe (th : Theme) (events : List Event) :
    1 ≤ (runEvents th events).style_stack.length ∧
    (runEvents th events).style_stack.head? = some th.text ∧
    (∃ s, (runEvents th events).style_stack.getLast? = some s ∧
      current_style th (runEvents th events) = s) ∧
    pop_style (StackState.new th) = StackState.new th := by
  have h := stack_inv_run th events (StackState.new th) (by simp [StackState.new])
    (by simp [StackState.new])
  refine ⟨?_, h.2, ?_, ?_⟩
  · have := h.1
    cases hst : (runEvents th events).style_stack with
    | nil => exact absurd hst (by simpa [runEvents] using h.1)
    | cons a t => simp
  · rcases List.exists_mem_of_ne_nil _ (by simpa [runEvents] using h.1) with ⟨x, _⟩
    cases hlast : (runEvents th events).style_stack.getLast? with
    | none =>
      exact absurd (List.getLast?_eq_none_iff.mp hlast) (by simpa [runEvents] using h.1)
    | some s => exact ⟨s, rfl, by simp [current_style, hlast]⟩
  · simp [pop_style, StackState.new]

/-- C10: the emitted horizontal-rule line is the theme's `hr_char` repeated
`options.width` times when `options.width > 0` and 40 times when it is 0. -/
theorem horizontal_rule_width (options : RenderOptions) (th : Theme)
    (lines : List Line) :
    ∃ t, render_horizontal_rule options th lines
        = lines ++ [[⟨t, th.horizontal_rule⟩]] ∧
      t.length = (if 0 < options.width then options.width else 40) ∧
      ∀ c ∈ t, c = th.hr_char := by
  refine ⟨List.replicate (if 0 < options.width then options.width else 40) th.hr_char,
    rfl, by simp, ?_⟩
  intro c hc
  exact List.eq_of_mem_replicate hc

/-- C4: `RenderOptions::new()` does have all four blank-line options true,
width 0 and no search pattern; but the derived `RenderOptions::default()`
sets all four blank-line options to `false` (the `bool` default), so the
claimed property fails for `default()`. -/
theorem render_options_defaults_cex :
    (RenderOptions.new.width = 0 ∧ RenderOptions.new.heading_space = true ∧
     RenderOptions.new.paragraph_space = true ∧
     RenderOptions.new.code_block_space = true ∧
     RenderOptions.new.list_space = true ∧
     RenderOptions.new.search_pattern = none) ∧
    (RenderOptions.default.width = 0 ∧
     RenderOptions.default.search_pattern = none) ∧
    RenderOptions.default.heading_space = false ∧
    RenderOptions.default.paragraph_space = false ∧
    RenderOptions.default.code_block_space = false ∧
    RenderOptions.default.list_space = false := by
  decide

/-- C5 counterexample: a `Default`-aligned cell is rendered flush left, not
centered — `"a"` padded to width 3 under `Default` alignment is `"a  "`,
while the claim predicts the centered `" a "`. -/
theorem pad_default_not_centered_cex :
    padCell Alignment.Default 3 ['a'] = ['a', ' ', ' '] ∧
    padCell Alignment.Default 3 ['a'] ≠ [' ', 'a', ' '] := by
  decide

/-- C5 (amended): `Left` and `Default` pad flush left, `Right` pads flush
right, `Center` centers with the tie space going to the right of the content
(content rounded toward the left); all four produce `max width len` chars. -/
theorem pad_alignment_spec (w : Nat) (s : List Char) :
    (∀ a, (padCell a w s).length = max w s.length) ∧
    (∃ k, padCell Alignment.Left w s = s ++ List.replicate k ' ') ∧
    (∃ k, padCell Alignment.Default w s = s ++ List.replicate k ' ') ∧
    (∃ k, padCell Alignment.Right w s = List.replicate k ' ' ++ s) ∧
    (∃ k₁ k₂, padCell Alignment.Center w s
        = List.replicate k₁ ' ' ++ s ++ List.replicate k₂ ' ' ∧
      k₁ ≤ k₂ ∧ k₂ ≤ k₁ + 1) := by
  by_cases h : w ≤ s.length
  · refine ⟨?_, ⟨0, by simp [padCell, h]⟩, ⟨0, by simp [padCell, h]⟩,
      ⟨0, by simp [padCell, h]⟩, ⟨0, 0, by simp [padCell, h], by omega, by omega⟩⟩
    intro a
    have hp : padCell a w s = s := by simp [padCell, h]
    rw [hp, Nat.max_eq_right h]
  · have hlt : s.length < w := by omega
    refine ⟨?_, ⟨w - s.length, by simp [padCell, h]⟩,
      ⟨w - s.length, by simp [padCell, h]⟩,
      ⟨w - s.length, by simp [padCell, h]⟩,
      ⟨(w - s.length) / 2, (w - s.length) - (w - s.length) / 2,
        by simp [padCell, h], by omega, by omega⟩⟩
    intro a
    cases a <;> simp [padCell, h] <;> omega

/-- C3 at the failing input `runs = [Span("éx")]`, needle `"x"`: the reported
match offsets are the UTF-8 byte offsets `(2, 3)` ('é' occupies two bytes),
not the character offsets `(1, 2)` the claim (and the `SearchMatch` field
documentation) promise. -/
theorem highlight_offsets_bytes_cex :
    (highlight_search [⟨['é', 'x'], Style.default⟩] ['x']
        (Style.default.withBg Color.Yellow)).2 = [(2, 3)] ∧
    (highlight_search [⟨['é', 'x'], Style.default⟩] ['x']
        (Style.default.withBg Color.Yellow)).2 ≠ [(1, 2)] := by
  decide

/-- C9: with `max_width == 0`, wrapping is disabled and the input comes back
as one physical line, runs unchanged (for every fuel, i.e. without entering
the loop at all). -/
theorem wrap_line_width_zero (cw : Char → Nat) (fuel : Nat) (spans : List RSpan)
    (indent : Nat) : wrap_line cw fuel spans 0 indent = some [spans] := by
  simp [wrap_line]

/-! ### Table layout: column widths (C6) and ragged rows (C2) -/

theorem updateWidths_getElem (cw : Char → Nat) (acc : List Nat)
    (row : List (List RSpan)) (i : Nat) :
    (updateWidths cw acc row)[i]?
      = (acc[i]?).map (fun w =>
          match row[i]? with
          | some c => max w (cellWidth cw c)
          | none => w) := by
  induction acc generalizing row i with
  | nil =>
    cases row <;> simp [updateWidths]
  | cons w ws ih =>
    cases row with
    | nil => cases i <;> simp [updateWidths]
    | cons c cs =>
      cases i with
      | zero => simp [updateWidths]
      | succ j => simpa [updateWidths] using ih cs j

theorem foldl_updateWidths_getElem (cw : Char → Nat)
    (rows : List (List (List RSpan))) :
    ∀ (acc : List Nat) (i w : Nat), acc[i]? = some w →
      (rows.foldl (updateWidths cw) acc)[i]?
        = some (List.foldl max w
            ((rows.filterMap (fun r => r[i]?)).map (cellWidth cw))) := by
  induction rows with
  | nil => intro acc i w h; simpa using h
  | cons r rest ih =>
    intro acc i w h
    cases hc : r[i]? with
    | none =>
      have h' : (updateWidths cw acc r)[i]? = some w := by
        rw [updateWidths_getElem, h]; simp [hc]
      simpa [List.filterMap_cons, hc] using ih (updateWidths cw acc r) i w h'
    | some c =>
      have h' : (updateWidths cw acc r)[i]? = some (max w (cellWidth cw c)) := by
        rw [updateWidths_getElem, h]; simp [hc]
      simpa [List.filterMap_cons, hc]
        using ih (updateWidths cw acc r) i (max w (cellWidth cw c)) h'

theorem foldl_max_init_le (l : List Nat) : ∀ a : Nat, a ≤ l.foldl max a := by
  induction l with
  | nil => intro a; exact Nat.le_refl a
  | cons b t ih =>
    intro a
    exact Nat.le_trans (Nat.le_max_left a b) (ih (max a b))

theorem mem_le_foldl_max (l : List Nat) :
    ∀ (a x : Nat), x ∈ l → x ≤ l.foldl max a := by
  induction l with
  | nil => intro a x hx; simp at hx
  | cons b t ih =>
    intro a x hx
    rcases List.mem_cons.mp hx with h | h
    · subst h
      exact Nat.le_trans (Nat.le_max_right a x) (foldl_max_init_le t _)
    · exact ih (max a b) x h

/-- C6: every rendered column width (for a column index below
`table_columns`) equals the maximum cell display width of that column over
all rows, floored at 3; hence it is at least 3 and at least every cell width
in the column.  (`specColWidth` is the spec's description of the width; rows
lacking the column contribute nothing to the maximum.) -/
theorem table_col_widths_spec (cw : Char → Nat) (cols : Nat)
    (rows : List (List (List RSpan))) (i : Nat)
    (hrows : rows ≠ []) (hi : i < cols) :
    (computeColWidths cw cols rows)[i]? = some (specColWidth cw rows i) ∧
    3 ≤ specColWidth cw rows i ∧
    ∀ row ∈ rows, ∀ cell, row[i]? = some cell →
      cellWidth cw cell ≤ specColWidth cw rows i := by
  have hrep : (List.replicate cols (0 : Nat))[i]? = some 0 := by
    simp [List.getElem?_replicate, hi]
  have hfold := foldl_updateWidths_getElem cw rows (List.replicate cols 0) i 0 hrep
  have hspec : specColWidth cw rows i
      = max (List.foldl max 0
          ((rows.filterMap (fun r => r[i]?)).map (cellWidth cw))) 3 := rfl
  refine ⟨?_, ?_, ?_⟩
  · unfold computeColWidths
    rw [List.getElem?_map, hfold, hspec]
    rfl
  · rw [hspec]
    exact Nat.le_max_right _ 3
  · intro row hrow cell hcell
    have hmem : cellWidth cw cell
        ∈ (rows.filterMap (fun r => r[i]?)).map (cellWidth cw) :=
      List.mem_map_of_mem _ (List.mem_filterMap.mpr ⟨row, hrow, hcell⟩)
    rw [hspec]
    exact Nat.le_trans (mem_le_foldl_max _ 0 _ hmem) (Nat.le_max_left _ 3)

theorem table_col_widths_spec_witness :
    (cexRows ≠ [] ∧ 0 < 2) ∧
    ((computeColWidths cwOne 2 cexRows)[0]? = some (specColWidth cwOne cexRows 0) ∧
     3 ≤ specColWidth cwOne cexRows 0 ∧
     ∀ row ∈ cexRows, ∀ cell, row[0]? = some cell →
       cellWidth cwOne cell ≤ specColWidth cwOne cexRows 0) :=
  ⟨⟨by decide, by decide⟩,
    table_col_widths_spec cwOne 2 cexRows 0 (by decide) (by decide)⟩

/-- C2 counterexample: with `column_count = 2`, the row `["x"]` (line index 3
of the rendered table) is emitted with only its own single cell — text
`"│ x   │ "` — not with a blank padded second cell (`"│ x   │     │ "`), and
the row `["p","q","rrrr"]` (line index 4) keeps its third cell `"rrrr"`
beyond `column_count` instead of dropping it. -/
theorem render_table_ragged_cex :
    lineText (((render_table cwOne Theme.default 2
        [Alignment.Default, Alignment.Default] cexRows)[3]?).getD [])
      = ['│', ' ', 'x', ' ', ' ', ' ', '│', ' '] ∧
    lineText (((render_table cwOne Theme.default 2
        [Alignment.Default, Alignment.Default] cexRows)[3]?).getD [])
      ≠ ['│', ' ', 'x', ' ', ' ', ' ', '│', ' ', ' ', ' ', ' ', ' ', '│', ' '] ∧
    (((render_table cwOne Theme.default 2
        [Alignment.Default, Alignment.Default] cexRows)[4]?).getD []).length = 7 ∧
    ∃ sp ∈ ((render_table cwOne Theme.default 2
        [Alignment.Default, Alignment.Default] cexRows)[4]?).getD [],
      sp.content = ['r', 'r', 'r', 'r'] := by
  decide

theorem renderCells_length (th : Theme) (widths : List Nat)
    (aligns : List Alignment) (sty : Style) (row : List (List RSpan)) :
    ∀ colIdx, (renderCells th widths aligns sty colIdx row).length
      = 2 * row.length := by
  induction row with
  | nil => intro colIdx; simp [renderCells]
  | cons c cs ih =>
    intro colIdx
    simp [renderCells, ih (colIdx + 1)]
    omega

/-- C2 (amended): each accumulated row is rendered with exactly one
(cell, border) span pair per cell the row actually has — a short row simply
produces fewer cells (no blank padding up to `column_count`), and cells
beyond `column_count` are rendered as well (with the fallback width 3 and
`Default` alignment), not dropped. -/
theorem render_table_ragged_rows (cw : Char → Nat) (th : Theme) (cols : Nat)
    (aligns : List Alignment) (rows : List (List (List RSpan)))
    (i : Nat) (row : List (List RSpan)) (h : rows[i]? = some row) :
    ∃ l, (render_table cw th cols aligns rows)[if i = 0 then 1 else i + 2]?
        = some l ∧
      l = rowLine th (computeColWidths cw cols rows) aligns
            (if i = 0 then th.table_header else th.table_cell) row ∧
      l.length = 1 + 2 * row.length := by
  cases rows with
  | nil => simp at h
  | cons hd tl =>
    cases i with
    | zero =>
      have hrow : hd = row := by simpa using h
      subst hrow
      refine ⟨rowLine th (computeColWidths cw cols (hd :: tl)) aligns
        th.table_header hd, ?_, by simp, ?_⟩
      · simp [render_table]
      · simp [rowLine, renderCells_length]
        omega
    | succ j =>
      have htl : tl[j]? = some row := by simpa using h
      have hj : j < tl.length := (List.getElem?_eq_some.mp htl).1
      refine ⟨rowLine th (computeColWidths cw cols (hd :: tl)) aligns
        th.table_cell row, ?_, by simp, ?_⟩
      · show (render_table cw th cols aligns (hd :: tl))[j + 3]? = _
        simp only [render_table]
        have hpeel : ∀ (a b c : Line) (L : List Line),
            (a :: b :: c :: L)[j + 3]? = L[j]? := by
          intro a b c L
          rw [show j + 3 = j + 2 + 1 from rfl, List.getElem?_cons_succ,
            show j + 2 = j + 1 + 1 from rfl, List.getElem?_cons_succ,
            List.getElem?_cons_succ]
        rw [hpeel, List.getElem?_append_left (by simpa using hj),
          List.getElem?_map, htl]
        rfl
      · simp [rowLine, renderCells_length]
        omega

/-! ### Word wrap: loop-step characterizations, divergence (C7) and
termination under `indent < max_width` -/

theorem wrapStep_fits (cw : Char → Nat) (mw ind : Nat) (sty : Style)
    (c : Char) (cs : List Char) (st : WrapSt)
    (h : st.curWidth + strWidth cw (c :: cs) ≤ mw) :
    wrapStep cw mw ind sty c cs st
      = Sum.inl ⟨st.result, st.cur ++ [⟨c :: cs, sty⟩],
          st.curWidth + strWidth cw (c :: cs)⟩ := by
  simp [wrapStep, h]

theorem wrapStep_newline (cw : Char → Nat) (mw ind : Nat) (sty : Style)
    (c : Char) (cs : List Char) (st : WrapSt)
    (h1 : ¬ st.curWidth + strWidth cw (c :: cs) ≤ mw)
    (h2 : mw - st.curWidth = 0) :
    wrapStep cw mw ind sty c cs st
      = Sum.inr (c :: cs,
          ⟨st.result ++ (if st.cur = [] then [] else [st.cur]),
           [indentSpan ind], ind⟩) := by
  simp [wrapStep, h1, h2]

theorem wrapStep_break (cw : Char → Nat) (mw ind : Nat) (sty : Style)
    (c : Char) (cs : List Char) (st : WrapSt)
    (h1 : ¬ st.curWidth + strWidth cw (c :: cs) ≤ mw)
    (h2 : ¬ mw - st.curWidth = 0) :
    wrapStep cw mw ind sty c cs st
      = Sum.inr ((((c :: cs).drop
            (breakAt cw (mw - st.curWidth) (c :: cs))).dropWhile Char.isWhitespace),
          ⟨st.result ++ [st.cur ++
              (if (c :: cs).take (breakAt cw (mw - st.curWidth) (c :: cs)) = []
               then []
               else [⟨(c :: cs).take (breakAt cw (mw - st.curWidth) (c :: cs)), sty⟩])],
           [indentSpan ind], ind⟩) := by
  simp [wrapStep, h1, h2]

theorem dropWhile_length_le (p : Char → Bool) (l : List Char) :
    (l.dropWhile p).length ≤ l.length :=
  List.Sublist.length_le (List.dropWhile_sublist _)

theorem scanWrap_lastSpace_lt (cw : Char → Nat) (av : Nat) :
    ∀ (s : List Char) (i wa ws : Nat) (ls : Option Nat),
      (∀ p, ls = some p → p < wa) → wa ≤ i →
      ∀ p, (scanWrap cw av s i wa ws ls).2 = some p →
        p < (scanWrap cw av s i wa ws ls).1 := by
  intro s
  induction s with
  | nil =>
    intro i wa ws ls h _ p hp
    exact h p (by simpa [scanWrap] using hp)
  | cons c cs ih =>
    intro i wa ws ls h hwi p hp
    by_cases hcond : av < ws + cw c
    · rw [scanWrap] at hp ⊢
      simp only [if_pos hcond] at hp ⊢
      exact h p hp
    · rw [scanWrap] at hp ⊢
      simp only [if_neg hcond] at hp ⊢
      refine ih (i + 1) (i + 1) (ws + cw c) _ ?_ (Nat.le_refl _) p hp
      intro q hq
      by_cases hw : c.isWhitespace
      · simp only [hw, if_pos] at hq
        have : q = i := by simpa using hq.symm
        omega
      · simp only [hw] at hq
        have := h q (by simpa using hq)
        omega

theorem breakAt_pos (cw : Char → Nat) (av : Nat) (r : List Char) :
    1 ≤ breakAt cw av r := by
  unfold breakAt breakPos
  cases hs : (scanWrap cw av r 0 0 0 none).2 with
  | none =>
    by_cases h0 : 0 < (scanWrap cw av r 0 0 0 none).1
    · simp only [if_pos h0]; omega
    · simp only [if_neg h0]; omega
  | some p =>
    have hlt := scanWrap_lastSpace_lt cw av r 0 0 0 none (by simp) (Nat.le_refl 0) p hs
    by_cases hp : 0 < p
    · simp only [if_pos hp]; omega
    · simp only [if_neg hp]; omega

theorem wrapSpanAux_mono (cw : Char → Nat) (mw ind : Nat) (sty : Style) :
    ∀ (fuel : Nat) (r : List Char) (st st' : WrapSt),
      wrapSpanAux cw mw ind sty fuel r st = some st' →
      wrapSpanAux cw mw ind sty (fuel + 1) r st = some st' := by
  intro fuel
  induction fuel with
  | zero =>
    intro r st st' h
    cases r with
    | nil => simpa [wrapSpanAux] using h
    | cons c cs => simp [wrapSpanAux] at h
  | succ f ih =>
    intro r st st' h
    cases r with
    | nil => simpa [wrapSpanAux] using h
    | cons c cs =>
      rw [wrapSpanAux] at h ⊢
      cases hstep : wrapStep cw mw ind sty c cs st with
      | inl s =>
        rw [hstep] at h
        simpa [hstep] using h
      | inr rs =>
        obtain ⟨r', st''⟩ := rs
        rw [hstep] at h
        simp only [hstep]
        exact ih r' st'' st' h

theorem wrapSpanAux_mono_le (cw : Char → Nat) (mw ind : Nat) (sty : Style)
    {f f' : Nat} (hle : f ≤ f') :
    ∀ (r : List Char) (st st' : WrapSt),
      wrapSpanAux cw mw ind sty f r st = some st' →
      wrapSpanAux cw mw ind sty f' r st = some st' := by
  induction hle with
  | refl => intro r st st' h; exact h
  | step _ ih =>
    intro r st st' h
    exact wrapSpanAux_mono cw mw ind sty _ r st st' (ih r st st' h)

theorem wrapSpanAux_stuck :
    ∀ (fuel : Nat) (res : List Line) (cur : Line), cur ≠ [] →
      wrapSpanAux cwOne 4 4 Style.default fuel ['b', 'b'] ⟨res, cur, 4⟩ = none := by
  intro fuel
  induction fuel with
  | zero => intro res cur _; rfl
  | succ f ih =>
    intro res cur hcur
    have hstep : wrapStep cwOne 4 4 Style.default 'b' ['b'] ⟨res, cur, 4⟩
        = Sum.inr (['b', 'b'], ⟨res ++ [cur], [indentSpan 4], 4⟩) := by
      rw [wrapStep_newline cwOne 4 4 Style.default 'b' ['b'] ⟨res, cur, 4⟩
        (by exact (by decide : ¬ ((4 : Nat) + strWidth cwOne ['b', 'b'] ≤ 4)))
        rfl]
      simp [hcur]
    rw [wrapSpanAux, hstep]
    exact ih (res ++ [cur]) [indentSpan 4] (by simp)

/-- C7 counterexample: at `max_width = 4`, `indent = 4`, the runs
`["aaaa", "bb"]` (every char one column wide) make the `available == 0`
branch fire forever — `remaining` is never consumed once
`current_width = indent ≥ max_width` — so `wrap_line` does not terminate on
this input for any amount of fuel; the claimed forced progress only covers
the `available > 0` path. -/
theorem wrap_line_divergence_cex :
    ¬ wrapTerminates cwOne
      [⟨['a', 'a', 'a', 'a'], Style.default⟩, ⟨['b', 'b'], Style.default⟩] 4 4 := by
  rintro ⟨fuel, lines, h⟩
  cases fuel with
  | zero => simp [wrap_line, wrapLineGo, wrapSpanAux] at h
  | succ f =>
    have h1 : wrapSpanAux cwOne 4 4 Style.default (f + 1) ['a', 'a', 'a', 'a']
        ⟨[], [], 0⟩ = some ⟨[], [⟨['a', 'a', 'a', 'a'], Style.default⟩], 4⟩ := by
      rw [wrapSpanAux,
        wrapStep_fits cwOne 4 4 Style.default 'a' ['a', 'a', 'a'] ⟨[], [], 0⟩
          (by decide)]
      rfl
    have h2 := wrapSpanAux_stuck (f + 1) []
      [⟨['a', 'a', 'a', 'a'], Style.default⟩] (by simp)
    rw [wrap_line] at h
    simp only [if_neg (by decide : ¬ (4 = 0))] at h
    rw [wrapLineGo] at h
    simp only [h1] at h
    rw [wrapLineGo] at h
    simp only [h2] at h
    exact (Option.noConfusion h)

theorem wrapSpanAux_term_aligned (cw : Char → Nat) (mw ind : Nat) (sty : Style)
    (hmw : ind < mw) :
    ∀ (n : Nat) (r : List Char) (st : WrapSt), r.length ≤ n → st.curWidth = ind →
      ∃ st', wrapSpanAux cw mw ind sty (n + 1) r st = some st' := by
  intro n
  induction n with
  | zero =>
    intro r st hr _
    have : r = [] := List.length_eq_zero.mp (Nat.le_zero.mp hr)
    subst this
    exact ⟨st, rfl⟩
  | succ m ih =>
    intro r st hr hcw
    cases r with
    | nil => exact ⟨st, rfl⟩
    | cons c cs =>
      by_cases hfit : st.curWidth + strWidth cw (c :: cs) ≤ mw
      · exact ⟨⟨st.result, st.cur ++ [⟨c :: cs, sty⟩],
            st.curWidth + strWidth cw (c :: cs)⟩,
          by rw [wrapSpanAux, wrapStep_fits cw mw ind sty c cs st hfit]⟩
      · have hav : ¬ mw - st.curWidth = 0 := by omega
        have hb1 := breakAt_pos cw (mw - st.curWidth) (c :: cs)
        have hstep := wrapStep_break cw mw ind sty c cs st hfit hav
        have hlen : ((((c :: cs).drop
            (breakAt cw (mw - st.curWidth) (c :: cs))).dropWhile
              Char.isWhitespace)).length ≤ m := by
          have hd : ((c :: cs).drop
              (breakAt cw (mw - st.curWidth) (c :: cs))).length
              = (c :: cs).length - breakAt cw (mw - st.curWidth) (c :: cs) :=
            List.length_drop _ _
          have hw := dropWhile_length_le Char.isWhitespace
            ((c :: cs).drop (breakAt cw (mw - st.curWidth) (c :: cs)))
          simp only [List.length_cons] at hd hr
          omega
        obtain ⟨st', hst'⟩ := ih
          (((c :: cs).drop
            (breakAt cw (mw - st.curWidth) (c :: cs))).dropWhile Char.isWhitespace)
          ⟨st.result ++ [st.cur ++
              (if (c :: cs).take (breakAt cw (mw - st.curWidth) (c :: cs)) = []
               then []
               else [⟨(c :: cs).take (breakAt cw (mw - st.curWidth) (c :: cs)), sty⟩])],
           [indentSpan ind], ind⟩ hlen rfl
        refine ⟨st', ?_⟩
        rw [wrapSpanAux, hstep]
        exact hst'

theorem wrapSpanAux_term (cw : Char → Nat) (mw ind : Nat) (sty : Style)
    (hmw : ind < mw) (r : List Char) (st : WrapSt) :
    ∃ st', wrapSpanAux cw mw ind sty (r.length + 2) r st = some st' := by
  cases r with
  | nil => exact ⟨st, rfl⟩
  | cons c cs =>
    by_cases hfit : st.curWidth + strWidth cw (c :: cs) ≤ mw
    · exact ⟨⟨st.result, st.cur ++ [⟨c :: cs, sty⟩],
          st.curWidth + strWidth cw (c :: cs)⟩,
        by rw [wrapSpanAux, wrapStep_fits cw mw ind sty c cs st hfit]⟩
    · by_cases hav : mw - st.curWidth = 0
      · have hstep := wrapStep_newline cw mw ind sty c cs st hfit hav
        obtain ⟨st', hst'⟩ := wrapSpanAux_term_aligned cw mw ind sty hmw
          (c :: cs).length (c :: cs)
          ⟨st.result ++ (if st.cur = [] then [] else [st.cur]),
           [indentSpan ind], ind⟩ (Nat.le_refl _) rfl
        refine ⟨st', ?_⟩
        rw [show (c :: cs).length + 2 = ((c :: cs).length + 1) + 1 from rfl,
          wrapSpanAux, hstep]
        exact hst'
      · have hb1 := breakAt_pos cw (mw - st.curWidth) (c :: cs)
        have hstep := wrapStep_break cw mw ind sty c cs st hfit hav
        have hlen : ((((c :: cs).drop
            (breakAt cw (mw - st.curWidth) (c :: cs))).dropWhile
              Char.isWhitespace)).length ≤ (c :: cs).length := by
          have hd : ((c :: cs).drop
              (breakAt cw (mw - st.curWidth) (c :: cs))).length
              = (c :: cs).length - breakAt cw (mw - st.curWidth) (c :: cs) :=
            List.length_drop _ _
          have hw := dropWhile_length_le Char.isWhitespace
            ((c :: cs).drop (breakAt cw (mw - st.curWidth) (c :: cs)))
          omega
        obtain ⟨st', hst'⟩ := wrapSpanAux_term_aligned cw mw ind sty hmw
          (c :: cs).length
          (((c :: cs).drop
            (breakAt cw (mw - st.curWidth) (c :: cs))).dropWhile Char.isWhitespace)
          ⟨st.result ++ [st.cur ++
              (if (c :: cs).take (breakAt cw (mw - st.curWidth) (c :: cs)) = []
               then []
               else [⟨(c :: cs).take (breakAt cw (mw - st.curWidth) (c :: cs)), sty⟩])],
           [indentSpan ind], ind⟩ hlen rfl
        refine ⟨st', ?_⟩
        rw [show (c :: cs).length + 2 = ((c :: cs).length + 1) + 1 from rfl,
          wrapSpanAux, hstep]
        exact hst'

theorem wrapLineGo_term (cw : Char → Nat) (mw ind : Nat) (hmw : ind < mw) :
    ∀ (spans : List RSpan) (st : WrapSt) (F : Nat),
      (∀ sp ∈ spans, sp.content.length + 2 ≤ F) →
      ∃ st', wrapLineGo cw mw ind F spans st = some st' := by
  intro spans
  induction spans with
  | nil => intro st F _; exact ⟨st, rfl⟩
  | cons sp sps ih =>
    intro st F hF
    obtain ⟨st1, h1⟩ := wrapSpanAux_term cw mw ind sp.style hmw sp.content st
    have h1' := wrapSpanAux_mono_le cw mw ind sp.style
      (hF sp (List.mem_cons_self _ _)) sp.content st st1 h1
    obtain ⟨st2, h2⟩ := ih st1 F (fun sp' hsp' => hF sp' (List.mem_cons_of_mem _ hsp'))
    refine ⟨st2, ?_⟩
    rw [wrapLineGo, h1']
    exact h2

/-- C7 (amended): `wrap_line` terminates whenever `max_width = 0` (wrapping
disabled) or `indent < max_width`; the forced one-character emission indeed
guarantees progress on every `available > 0` iteration, but when
`0 < max_width ≤ indent` the `available == 0` branch repeats without
consuming input and the loop never terminates (see the counterexample). -/
theorem wrap_line_terminates (cw : Char → Nat) (spans : List RSpan)
    (mw ind : Nat) (h : mw = 0 ∨ ind < mw) :
    wrapTerminates cw spans mw ind := by
  rcases h with h0 | hlt
  · exact ⟨0, [spans], by simp [wrap_line, h0]⟩
  · have hmw0 : ¬ mw = 0 := by omega
    have hFb : ∀ sp ∈ spans, sp.content.length + 2
        ≤ (spans.map (fun sp => sp.content.length)).foldl max 0 + 2 := by
      intro sp hsp
      have hmem : sp.content.length ∈ spans.map (fun sp => sp.content.length) :=
        List.mem_map_of_mem _ hsp
      have := mem_le_foldl_max _ 0 _ hmem
      omega
    obtain ⟨st', hst'⟩ := wrapLineGo_term cw mw ind hlt spans ⟨[], [], 0⟩
      ((spans.map (fun sp => sp.content.length)).foldl max 0 + 2) hFb
    refine ⟨(spans.map (fun sp => sp.content.length)).foldl max 0 + 2,
      (if st'.result ++ (if st'.cur = [] then [] else [st'.cur]) = []
       then [([] : Line)]
       else st'.result ++ (if st'.cur = [] then [] else [st'.cur])), ?_⟩
    rw [wrap_line, if_neg hmw0, hst']

theorem wrap_line_terminates_witness :
    ((4 : Nat) = 0 ∨ (2 : Nat) < 4) ∧
    wrapTerminates cwOne [⟨['h', 'i', ' ', 'w'], Style.default⟩] 4 2 :=
  ⟨Or.inr (by decide),
    wrap_line_terminates cwOne [⟨['h', 'i', ' ', 'w'], Style.default⟩] 4 2
      (Or.inr (by decide))⟩

/-! ### Word wrap: round-trip text preservation (C1) -/

theorem lineText_append (a b : Line) :
    lineText (a ++ b) = lineText a ++ lineText b := by
  simp [lineText]

theorem lineText_single (x : RSpan) : lineText [x] = x.content := by
  simp [lineText]

theorem piecesOf_ne_nil (ind : Nat) (ls : List Line) (h : ls ≠ []) :
    piecesOf ind ls ≠ [] := by
  cases ls with
  | nil => exact absurd rfl h
  | cons l ls' => simp [piecesOf]

theorem piecesOf_append_last (ind : Nat) (ls : List Line) (l : Line)
    (h : ls ≠ []) :
    piecesOf ind (ls ++ [l]) = piecesOf ind ls ++ [stripOne ind l] := by
  cases ls with
  | nil => exact absurd rfl h
  | cons x rest => simp [piecesOf]

theorem lastExtend_nil_right (xs : List (List Char)) : lastExtend xs [] = xs := by
  induction xs with
  | nil => rfl
  | cons x xs' ih =>
    cases xs' with
    | nil => rfl
    | cons x' xs'' => rw [lastExtend, ih]

theorem lastExtend_ne_nil (xs ys : List (List Char)) (h : xs ≠ []) :
    lastExtend xs ys ≠ [] := by
  cases xs with
  | nil => exact absurd rfl h
  | cons x xs' =>
    cases xs' with
    | nil =>
      cases ys with
      | nil => simp [lastExtend]
      | cons y ys' => simp [lastExtend]
    | cons x' xs'' => simp [lastExtend]

theorem lastExtend_append_singleton (A : List (List Char)) (a y : List Char)
    (ys : List (List Char)) :
    lastExtend (A ++ [a]) (y :: ys) = A ++ (a ++ y) :: ys := by
  induction A with
  | nil => rfl
  | cons x A' ih =>
    cases hA : A' ++ [a] with
    | nil => exact absurd hA (by simp)
    | cons z zs =>
      show lastExtend (x :: (A' ++ [a])) (y :: ys) = _
      rw [hA, lastExtend, ← hA, ih]
      rfl

theorem lastExtend_snoc_piece (P : List (List Char)) (y : List Char)
    (h : P ≠ []) :
    lastExtend P [y, []] = lastExtend P [y] ++ [[]] := by
  induction P with
  | nil => exact absurd rfl h
  | cons x P' ih =>
    cases P' with
    | nil => rfl
    | cons x' P'' =>
      rw [lastExtend, lastExtend, ih (by simp)]
      rfl

theorem lastExtend_nilpiece (P : List (List Char)) (h : P ≠ []) :
    lastExtend P [[]] = P := by
  induction P with
  | nil => exact absurd rfl h
  | cons x P' ih =>
    cases P' with
    | nil => simp [lastExtend]
    | cons x' P'' =>
      rw [lastExtend, ih (by simp)]

theorem lastExtend_two (y : List Char) (es : List (List Char)) (h : es ≠ []) :
    lastExtend [y, []] es = y :: es := by
  cases es with
  | nil => exact absurd rfl h
  | cons e es' => simp [lastExtend]

theorem lastExtend_assoc (a b c : List (List Char)) (hb : b ≠ []) :
    lastExtend (lastExtend a b) c = lastExtend a (lastExtend b c) := by
  induction a with
  | nil => rfl
  | cons x a' ih =>
    cases a' with
    | nil =>
      cases b with
      | nil => exact absurd rfl hb
      | cons y ys =>
        cases ys with
        | nil =>
          cases c with
          | nil => rw [lastExtend_nil_right, lastExtend_nil_right]
          | cons z zs => simp [lastExtend, List.append_assoc]
        | cons y' ys' =>
          show lastExtend ((x ++ y) :: y' :: ys') c
              = lastExtend [x] (y :: lastExtend (y' :: ys') c)
          rw [show lastExtend ((x ++ y) :: y' :: ys') c
              = (x ++ y) :: lastExtend (y' :: ys') c from rfl]
          cases hc : lastExtend (y' :: ys') c with
          | nil => exact absurd hc (lastExtend_ne_nil _ _ (by simp))
          | cons w ws => rfl
    | cons x' a'' =>
      cases hLe : lastExtend (x' :: a'') b with
      | nil => exact absurd hLe (lastExtend_ne_nil _ _ (by simp))
      | cons z zs =>
        calc lastExtend (lastExtend (x :: x' :: a'') b) c
            = lastExtend (x :: (z :: zs)) c := by
              rw [show lastExtend (x :: x' :: a'') b
                  = x :: lastExtend (x' :: a'') b from rfl, hLe]
          _ = x :: lastExtend (z :: zs) c := rfl
          _ = x :: lastExtend (lastExtend (x' :: a'') b) c := by rw [hLe]
          _ = x :: lastExtend (x' :: a'') (lastExtend b c) := by rw [ih]
          _ = lastExtend (x :: x' :: a'') (lastExtend b c) := rfl

theorem lastExtend_length (xs ys : List (List Char)) (hx : xs ≠ [])
    (hy : ys ≠ []) :
    (lastExtend xs ys).length + 1 = xs.length + ys.length := by
  induction xs with
  | nil => exact absurd rfl hx
  | cons x xs' ih =>
    cases xs' with
    | nil =>
      cases ys with
      | nil => exact absurd rfl hy
      | cons y ys' => simp [lastExtend]; omega
    | cons x' xs'' =>
      have := ih (by simp)
      rw [lastExtend]
      simp only [List.length_cons] at this ⊢
      omega

theorem interleave_cons_cons (e w : List Char) (es ws : List (List Char)) :
    interleave (e :: es) (w :: ws) = e ++ (w ++ interleave es ws) := by
  simp [interleave]

theorem interleave_head_append (x y : List Char) (ys ws : List (List Char)) :
    interleave ((x ++ y) :: ys) ws = x ++ interleave (y :: ys) ws := by
  cases ws with
  | nil => simp [interleave]
  | cons w ws' => simp [interleave]

theorem interleave_append (es₁ ws₁ es₂ ws₂ : List (List Char))
    (hlen : ws₁.length + 1 = es₁.length) (h2 : es₂ ≠ []) :
    interleave (lastExtend es₁ es₂) (ws₁ ++ ws₂)
      = interleave es₁ ws₁ ++ interleave es₂ ws₂ := by
  induction es₁ generalizing ws₁ with
  | nil => simp at hlen
  | cons e es₁' ih =>
    cases es₁' with
    | nil =>
      have hw : ws₁ = [] := by
        cases ws₁ with
        | nil => rfl
        | cons w ws' => simp at hlen
      subst hw
      cases es₂ with
      | nil => exact absurd rfl h2
      | cons y ys =>
        rw [show lastExtend [e] (y :: ys) = (e ++ y) :: ys from rfl,
          interleave_head_append]
        simp [interleave]
    | cons e' es₁'' =>
      cases ws₁ with
      | nil => simp at hlen
      | cons w ws₁' =>
        have hlen' : ws₁'.length + 1 = (e' :: es₁'').length := by
          simpa using hlen
        rw [show lastExtend (e :: e' :: es₁'') es₂
            = e :: lastExtend (e' :: es₁'') es₂ from rfl]
        cases hle : lastExtend (e' :: es₁'') es₂ with
        | nil => exact absurd hle (lastExtend_ne_nil _ _ (by simp))
        | cons z zs =>
          rw [show ((w :: ws₁') ++ ws₂) = w :: (ws₁' ++ ws₂) from rfl,
            interleave, ← hle, ih ws₁' hlen', interleave]
          simp [List.append_assoc]

theorem drop_replicate_append (ind : Nat) (A : List Char) :
    (List.replicate ind ' ' ++ A).drop ind = A := by
  simpa using List.drop_left (List.replicate ind ' ') A

theorem lineText_cons (x : RSpan) (l : Line) :
    lineText (x :: l) = x.content ++ lineText l := by
  simp [lineText]

theorem stripOne_extend (ind : Nat) (st : WrapSt) (X : Line)
    (hInv : Inv ind st) (hres : st.result ≠ []) :
    stripOne ind (st.cur ++ X) = stripOne ind st.cur ++ lineText X := by
  obtain ⟨rest, hrest⟩ := hInv.2 hres
  rw [stripOne, stripOne, hrest, lineText_append, lineText_cons]
  show (List.replicate ind ' ' ++ lineText rest ++ lineText X).drop ind
      = (List.replicate ind ' ' ++ lineText rest).drop ind ++ lineText X
  rw [List.append_assoc, drop_replicate_append, drop_replicate_append]

theorem piecesOf_cons_append (ind : Nat) (l : Line) (ls : List Line) (c : Line) :
    piecesOf ind ((l :: ls) ++ [c])
      = (lineText l :: ls.map (stripOne ind)) ++ [stripOne ind c] := by
  simp [piecesOf]

theorem pieces_extend (ind : Nat) (st : WrapSt) (X : Line) (hInv : Inv ind st) :
    piecesOf ind (st.result ++ [st.cur ++ X])
      = lastExtend (Pieces ind st) [lineText X] := by
  cases hres : st.result with
  | nil =>
    rw [Pieces, hres]
    show piecesOf ind [st.cur ++ X] = lastExtend (piecesOf ind [st.cur]) [lineText X]
    rw [show piecesOf ind [st.cur ++ X] = [lineText (st.cur ++ X)] from rfl,
      show piecesOf ind [st.cur] = [lineText st.cur] from rfl,
      lineText_append]
    rfl
  | cons l ls =>
    have hstrip := stripOne_extend ind st X hInv (by rw [hres]; simp)
    rw [Pieces, hres, piecesOf_cons_append, piecesOf_cons_append,
      lastExtend_append_singleton, hstrip]

theorem pieces_push (ind : Nat) (st : WrapSt) (X : Line) (hInv : Inv ind st) :
    piecesOf ind ((st.result ++ [st.cur ++ X]) ++ [[indentSpan ind]])
      = lastExtend (Pieces ind st) [lineText X, []] := by
  rw [piecesOf_append_last ind _ _ (by simp), pieces_extend ind st X hInv,
    lastExtend_snoc_piece _ _
      (by rw [Pieces]; exact piecesOf_ne_nil _ _ (by simp))]
  congr 1
  rw [stripOne, lineText_single]
  show [(List.replicate ind ' ').drop ind] = [([] : List Char)]
  simp

theorem wrapSpanAux_pieces (cw : Char → Nat) (mw ind : Nat) (sty : Style)
    (hmw : ¬ mw = 0) :
    ∀ (fuel : Nat) (r : List Char) (st st' : WrapSt), Inv ind st →
      wrapSpanAux cw mw ind sty fuel r st = some st' →
      Inv ind st' ∧ ∃ es ws, es ≠ [] ∧ ws.length + 1 = es.length ∧
        allWhite ws ∧ interleave es ws = r ∧
        Pieces ind st' = lastExtend (Pieces ind st) es := by
  intro fuel
  induction fuel with
  | zero =>
    intro r st st' hInv h
    cases r with
    | nil =>
      have hst : st = st' := by simpa [wrapSpanAux] using h
      subst hst
      refine ⟨hInv, [[]], [], by simp, by simp, by simp [allWhite],
        by simp [interleave], ?_⟩
      exact (lastExtend_nilpiece _
        (by rw [Pieces]; exact piecesOf_ne_nil _ _ (by simp))).symm
    | cons c cs => simp [wrapSpanAux] at h
  | succ f ih =>
    intro r st st' hInv h
    cases r with
    | nil =>
      have hst : st = st' := by simpa [wrapSpanAux] using h
      subst hst
      refine ⟨hInv, [[]], [], by simp, by simp, by simp [allWhite],
        by simp [interleave], ?_⟩
      exact (lastExtend_nilpiece _
        (by rw [Pieces]; exact piecesOf_ne_nil _ _ (by simp))).symm
    | cons c cs =>
      rw [wrapSpanAux] at h
      by_cases hfit : st.curWidth + strWidth cw (c :: cs) ≤ mw
      · rw [wrapStep_fits cw mw ind sty c cs st hfit] at h
        have hst : (⟨st.result, st.cur ++ [⟨c :: cs, sty⟩],
            st.curWidth + strWidth cw (c :: cs)⟩ : WrapSt) = st' := by
          simpa using h
        subst hst
        constructor
        · constructor
          · intro hc; exact absurd hc (by simp)
          · intro hres
            obtain ⟨rest, hrest⟩ := hInv.2 hres
            exact ⟨rest ++ [⟨c :: cs, sty⟩], by rw [hrest]; rfl⟩
        · refine ⟨[c :: cs], [], by simp, by simp, by simp [allWhite],
            by simp [interleave], ?_⟩
          have hpe := pieces_extend ind st [⟨c :: cs, sty⟩] hInv
          rw [lineText_single] at hpe
          exact hpe
      · by_cases hav : mw - st.curWidth = 0
        · -- available == 0: push the line and retry the same remaining text
          have hcurne : st.cur ≠ [] := by
            intro hc
            have h0 := (hInv.1 hc).2
            omega
          rw [wrapStep_newline cw mw ind sty c cs st hfit hav] at h
          simp only [if_neg hcurne] at h
          have hInv'' : Inv ind ⟨st.result ++ [st.cur], [indentSpan ind], ind⟩ :=
            ⟨fun hc => absurd hc (by simp), fun _ => ⟨[], rfl⟩⟩
          obtain ⟨hInv', es', ws', hne', hlen', hwhite', hint', hpieces'⟩ :=
            ih (c :: cs) _ st' hInv'' h
          refine ⟨hInv', [] :: es', [] :: ws', by simp, by simpa using hlen',
            ?_, ?_, ?_⟩
          · intro w hw ch hch
            rcases List.mem_cons.mp hw with h1 | h1
            · subst h1; simp at hch
            · exact hwhite' w h1 ch hch
          · rw [interleave_cons_cons]
            simpa using hint'
          · rw [hpieces']
            have hP : Pieces ind ⟨st.result ++ [st.cur], [indentSpan ind], ind⟩
                = lastExtend (Pieces ind st) [[], []] := by
              have hpp := pieces_push ind st [] hInv
              rw [show lineText [] = ([] : List Char) from rfl] at hpp
              rw [Pieces]
              show piecesOf ind ((st.result ++ [st.cur]) ++ [[indentSpan ind]]) = _
              rw [show st.result ++ [st.cur]
                  = st.result ++ [st.cur ++ ([] : Line)] by simp]
              exact hpp
            rw [hP, lastExtend_assoc _ _ _ (by simp), lastExtend_two _ _ hne']
        · -- break at the chosen position, trim leading whitespace
          rw [wrapStep_break cw mw ind sty c cs st hfit hav] at h
          have hInv'' : Inv ind ⟨st.result ++ [st.cur ++
              (if (c :: cs).take (breakAt cw (mw - st.curWidth) (c :: cs)) = []
               then []
               else [⟨(c :: cs).take (breakAt cw (mw - st.curWidth) (c :: cs)),
                 sty⟩])], [indentSpan ind], ind⟩ :=
            ⟨fun hc => absurd hc (by simp), fun _ => ⟨[], rfl⟩⟩
          obtain ⟨hInv', es', ws', hne', hlen', hwhite', hint', hpieces'⟩ :=
            ih _ _ st' hInv'' h
          refine ⟨hInv',
            (c :: cs).take (breakAt cw (mw - st.curWidth) (c :: cs)) :: es',
            (((c :: cs).drop
                (breakAt cw (mw - st.curWidth) (c :: cs))).takeWhile
              Char.isWhitespace) :: ws',
            by simp, by simpa using hlen', ?_, ?_, ?_⟩
          · intro w hw ch hch
            rcases List.mem_cons.mp hw with h1 | h1
            · subst h1; exact List.mem_takeWhile_imp hch
            · exact hwhite' w h1 ch hch
          · rw [interleave_cons_cons, hint', List.takeWhile_append_dropWhile,
              List.take_append_drop]
          · rw [hpieces']
            have hP : Pieces ind ⟨st.result ++ [st.cur ++
                (if (c :: cs).take (breakAt cw (mw - st.curWidth) (c :: cs)) = []
                 then []
                 else [⟨(c :: cs).take (breakAt cw (mw - st.curWidth) (c :: cs)),
                   sty⟩])], [indentSpan ind], ind⟩
                = lastExtend (Pieces ind st)
                    [(c :: cs).take (breakAt cw (mw - st.curWidth) (c :: cs)), []] := by
              have hpp := pieces_push ind st
                (if (c :: cs).take (breakAt cw (mw - st.curWidth) (c :: cs)) = []
                 then []
                 else [⟨(c :: cs).take (breakAt cw (mw - st.curWidth) (c :: cs)),
                   sty⟩]) hInv
              have hlt : lineText
                  (if (c :: cs).take (breakAt cw (mw - st.curWidth) (c :: cs)) = []
                   then ([] : Line)
                   else [⟨(c :: cs).take (breakAt cw (mw - st.curWidth) (c :: cs)),
                     sty⟩])
                  = (c :: cs).take (breakAt cw (mw - st.curWidth) (c :: cs)) := by
                by_cases hb :
                    (c :: cs).take (breakAt cw (mw - st.curWidth) (c :: cs)) = []
                · rw [if_pos hb, hb]; rfl
                · rw [if_neg hb, lineText_single]
              rw [hlt] at hpp
              exact hpp
            rw [hP, lastExtend_assoc _ _ _ (by simp), lastExtend_two _ _ hne']

theorem wrapLineGo_pieces (cw : Char → Nat) (mw ind : Nat) (hmw : ¬ mw = 0) :
    ∀ (spans : List RSpan) (fuel : Nat) (st st' : WrapSt), Inv ind st →
      wrapLineGo cw mw ind fuel spans st = some st' →
      Inv ind st' ∧ ∃ es ws, es ≠ [] ∧ ws.length + 1 = es.length ∧
        allWhite ws ∧ interleave es ws = lineText spans ∧
        Pieces ind st' = lastExtend (Pieces ind st) es := by
  intro spans
  induction spans with
  | nil =>
    intro fuel st st' hInv h
    have hst : st = st' := by simpa [wrapLineGo] using h
    subst hst
    refine ⟨hInv, [[]], [], by simp, by simp, by simp [allWhite],
      by simp [interleave, lineText], ?_⟩
    exact (lastExtend_nilpiece _
      (by rw [Pieces]; exact piecesOf_ne_nil _ _ (by simp))).symm
  | cons sp sps ih =>
    intro fuel st st' hInv h
    rw [wrapLineGo] at h
    cases haux : wrapSpanAux cw mw ind sp.style fuel sp.content st with
    | none => rw [haux] at h; exact absurd h (by simp)
    | some st1 =>
      rw [haux] at h
      obtain ⟨hInv1, es₁, ws₁, hne₁, hlen₁, hwhite₁, hint₁, hpieces₁⟩ :=
        wrapSpanAux_pieces cw mw ind sp.style hmw fuel sp.content st st1 hInv haux
      obtain ⟨hInv', es₂, ws₂, hne₂, hlen₂, hwhite₂, hint₂, hpieces₂⟩ :=
        ih fuel st1 st' hInv1 h
      refine ⟨hInv', lastExtend es₁ es₂, ws₁ ++ ws₂,
        lastExtend_ne_nil _ _ hne₁, ?_, ?_, ?_, ?_⟩
      · have := lastExtend_length es₁ es₂ hne₁ hne₂
        simp only [List.length_append]
        omega
      · intro w hw ch hch
        rcases List.mem_append.mp hw with h1 | h1
        · exact hwhite₁ w h1 ch hch
        · exact hwhite₂ w h1 ch hch
      · rw [interleave_append es₁ ws₁ es₂ ws₂ hlen₁ hne₂, hint₁, hint₂,
          lineText_cons]
      · rw [hpieces₂, hpieces₁, lastExtend_assoc _ _ _ hne₁]

/-- C1: whenever `wrap_line` (with `max_width > 0`) returns, interleaving the
output pieces — the first line's text and each continuation line's text with
its `indent`-space prefix removed — with the whitespace strings removed at
the break points (one per line boundary) reconstructs the concatenated input
text exactly: no character is duplicated or dropped. -/
theorem wrap_line_roundtrip (cw : Char → Nat) (fuel : Nat) (spans : List RSpan)
    (mw ind : Nat) (lines : List Line) (hmw : 0 < mw)
    (h : wrap_line cw fuel spans mw ind = some lines) :
    ∃ ws, allWhite ws ∧ ws.length + 1 = (piecesOf ind lines).length ∧
      interleave (piecesOf ind lines) ws = lineText spans := by
  have hmw0 : ¬ mw = 0 := by omega
  rw [wrap_line, if_neg hmw0] at h
  cases hgo : wrapLineGo cw mw ind fuel spans ⟨[], [], 0⟩ with
  | none => rw [hgo] at h; exact absurd h (by simp)
  | some st =>
    rw [hgo] at h
    have hInv0 : Inv ind ⟨[], [], 0⟩ :=
      ⟨fun _ => ⟨rfl, rfl⟩, fun hres => absurd rfl hres⟩
    obtain ⟨hInvSt, es, ws, hne, hlen, hwhite, hint, hpieces⟩ :=
      wrapLineGo_pieces cw mw ind hmw0 spans fuel ⟨[], [], 0⟩ st hInv0 hgo
    have hP0 : Pieces ind ⟨[], [], 0⟩ = [[]] := rfl
    have hPes : Pieces ind st = es := by
      rw [hpieces, hP0]
      cases es with
      | nil => exact absurd rfl hne
      | cons e es' =>
        rw [show lastExtend [[]] (e :: es') = ([] ++ e) :: es' from rfl]
        simp
    have hlines : piecesOf ind lines = es := by
      by_cases hcur : st.cur = []
      · have hres := (hInvSt.1 hcur).1
        have : lines = [[]] := by
          simp only [hcur, hres] at h
          simpa using h.symm
        rw [this, ← hPes, Pieces, hres, hcur]
        rfl
      · have : lines = st.result ++ [st.cur] := by
          simp only [if_neg hcur] at h
          have hne2 : ¬ st.result ++ [st.cur] = [] := by simp
          simp only [hne2, if_neg, not_false_iff] at h
          exact (Option.some.inj h).symm
        rw [this, ← hPes, Pieces]
    exact ⟨ws, hwhite, by rw [hlines]; omega, by rw [hlines]; exact hint⟩

theorem wrap_line_roundtrip_witness :
    0 < 4 ∧ wrap_line cwOne 30 rtSpans 4 1 = some rtLines ∧
    ∃ ws, allWhite ws ∧ ws.length + 1 = (piecesOf 1 rtLines).length ∧
      interleave (piecesOf 1 rtLines) ws = lineText rtSpans :=
  ⟨by decide, by decide,
    wrap_line_roundtrip cwOne 30 rtSpans 4 1 rtLines (by decide) (by decide)⟩

theorem render_table_ragged_rows_witness :
    cexRows[1]? = some [[⟨['x'], Style.default⟩]] ∧
    ∃ l, (render_table cwOne Theme.default 2
        [Alignment.Default, Alignment.Default] cexRows)[if 1 = 0 then 1 else 1 + 2]?
          = some l ∧
      l = rowLine Theme.default
            (computeColWidths cwOne 2 cexRows)
            [Alignment.Default, Alignment.Default]
            (if 1 = 0 then Theme.default.table_header else Theme.default.table_cell)
            [[⟨['x'], Style.default⟩]] ∧
      l.length = 1 + 2 * ([[⟨['x'], Style.default⟩]] : List (List RSpan)).length :=
  ⟨by decide,
    render_table_ragged_rows cwOne Theme.default 2
      [Alignment.Default, Alignment.Default] cexRows 1
      [[⟨['x'], Style.default⟩]] (by decide)⟩

end MD
